import Mathlib

/-!
Shallow embedding of the sequence grouping and table curation engine of the
apscale pipeline, together with proofs about the properties stated in its
specification.  The embedding covers:

* `h_lulu_filtering.py`: the daughter/parent acceptance test
  (`check_daughter`), the transitive aggregation of daughter → parent
  relations (`aggregate_relations`) and the curation of the read table
  (reindex + groupby sum).
* `j_generate_read_table.py`: the unique-sequence indexer
  (`parse_fasta_data` / the `seq_hash_to_idx` catalog of
  `index_data_to_hdf`), the abundance-ordered fasta generation
  (`generate_fasta`), the greedy grouping pass
  (`generate_sequence_groups`), the wide read table materialisation
  (`generate_read_table`) and the stage sequencing of `main`.

Numbers: read counts are naturals; Python float arithmetic on the small
statistics (co-occurrence, abundance ratios, thresholds) is modelled
exactly over `ℚ`.  Sequence identifiers handled only by equality (OTU/ESV
names, hash strings of the indexer) are `String`s; the content hashes of
the read-table generator, whose *ordering* the specification talks about,
are modelled as `ℕ` values.
-/

namespace Apscale

/-! ## h_lulu_filtering.check_daughter -/

/-- Row of the OTU/ESV data table: the sequence identifier (the table index)
and its per-sample read counts (one entry per sample column). -/
structure Row where
  name : String
  reads : List ℕ
deriving DecidableEq

/-- Comp frame of `check_daughter`: the daughter and candidate-parent read
counts paired up sample by sample, restricted to the samples where the
daughter has nonzero reads (`comp = comp.loc[comp[pot_daughter_name] > 0]`). -/
def compFrame (daughter parent : List ℕ) : List (ℕ × ℕ) :=
  (daughter.zip parent).filter (fun r => decide (0 < r.1))

/-- Denominator of the relative co-occurrence:
`np.count_nonzero(comp[parent])`, the number of comp-frame samples where the
candidate parent has nonzero reads. -/
def relCoDen (daughter parent : List ℕ) : ℕ :=
  ((compFrame daughter parent).filter (fun r => decide (r.2 ≠ 0))).length

/-- Relative co-occurrence as the code computes it:
`rel_co = len(comp) / np.count_nonzero(comp[parent])`, with the
`ZeroDivisionError` handler assigning `rel_co = 0` when the denominator is
zero. -/
def rel_co (daughter parent : List ℕ) : ℚ :=
  if relCoDen daughter parent = 0 then 0
  else ((compFrame daughter parent).length : ℚ) / (relCoDen daughter parent : ℚ)

/-- Per-sample abundance ratios `comp["ab_ratio"] = comp[parent] / comp[daughter]`
over the comp frame (where the daughter count is positive). -/
def abRatios (daughter parent : List ℕ) : List ℚ :=
  (compFrame daughter parent).map (fun r => (r.2 : ℚ) / (r.1 : ℚ))

/-- Python `min` over an iterable of rationals: `none` models the
`ValueError` raised on an empty iterable. -/
def pyMin : List ℚ → Option ℚ
  | [] => none
  | x :: xs => some (xs.foldl min x)

/-- Occurrence statistic of a row: `np.count_nonzero` over its sample
columns, as computed by `load_data_table`. -/
def occurrence (r : Row) : ℕ :=
  (r.reads.filter (fun c => decide (c ≠ 0))).length

/-- Potential parents of a daughter: the hits of the hit frame whose
occurrence statistic is at least the daughter's, in hit-frame (table)
order. -/
def potParents (hitFrame : List Row) (stats : String → ℕ) (dname : String) : List Row :=
  hitFrame.filter (fun h => decide (stats dname ≤ stats h.name))

/-- Loop body of `check_daughter` over the potential parents.  For each
candidate (skipping a falsy empty name, `if parent:`): compute the relative
co-occurrence; if it exceeds the configured minimum, compute the minimum
per-sample abundance ratio and accept the candidate if that minimum exceeds
the configured ratio threshold.  `Except.error` models the `ValueError` that
`min` would raise on an empty comp frame. -/
def checkDaughterGo (d : Row) (minRelCo minRatio : ℚ) :
    List Row → Except Unit (Option (String × String × ℚ × ℚ))
  | [] => Except.ok none
  | p :: rest =>
    if p.name = "" then checkDaughterGo d minRelCo minRatio rest
    else
      if minRelCo < rel_co d.reads p.reads then
        match pyMin (abRatios d.reads p.reads) with
        | none => Except.error ()
        | some m =>
          if minRatio < m then
            Except.ok (some (d.name, p.name, rel_co d.reads p.reads, m))
          else checkDaughterGo d minRelCo minRatio rest
      else checkDaughterGo d minRelCo minRatio rest

/-- Acceptance test of the curation (daughter/parent) mode: evaluate the
potential parents of the daughter in hit-frame order and return the first
accepted candidate, if any. -/
def check_daughter (d : Row) (hitFrame : List Row) (stats : String → ℕ)
    (minRelCo minRatio : ℚ) : Except Unit (Option (String × String × ℚ × ℚ)) :=
  checkDaughterGo d minRelCo minRatio (potParents hitFrame stats d.name)

/-- Relative co-occurrence in the words of the specification, for comparison
with the value the code computes: the number of samples where the daughter
and the candidate both have nonzero reads, divided by the candidate's
nonzero-sample count. -/
def relCoSpec (daughter parent : List ℕ) : ℚ :=
  (((daughter.zip parent).filter (fun r => decide (0 < r.1 ∧ 0 < r.2))).length : ℚ) /
    ((parent.filter (fun c => decide (0 < c))).length : ℚ)

/-! ## The main filtering loop of h_lulu_filtering.main

`main` looks up, for every id of the match list, its table row
(`data_table.loc[[seq]]`), the rows of its matches
(`data_table.loc[data_table.index.isin(matches[seq])]`, in table order) and
the occurrence statistics, runs `check_daughter`, and keeps the
daughter → parent pairs of the successful checks in match-list order. -/

/-- Table row with a given id (`data_table.loc[[seq]]`). -/
def rowNamed (table : List Row) (n : String) : Row :=
  (table.find? (fun r => decide (r.name = n))).getD ⟨n, []⟩

/-- Rows of the table whose id is among the given hits, in table order
(`data_table.loc[data_table.index.isin(matches[seq])]`). -/
def hitFrameFor (table : List Row) (hits : List String) : List Row :=
  table.filter (fun r => decide (r.name ∈ hits))

/-- Daughter → parent relations produced by running the acceptance test over
the match list (`relations = {hit[0]: hit[1] for hit in results}` in
`main`), in match-list order. -/
def buildRelations (table : List Row) (matchList : List (String × List String))
    (minRelCo minRatio : ℚ) : List (String × String) :=
  matchList.foldl
    (fun acc m =>
      match check_daughter (rowNamed table m.1) (hitFrameFor table m.2)
          (fun n => occurrence (rowNamed table n)) minRelCo minRatio with
      | Except.ok (some res) => acc ++ [(res.1, res.2.1)]
      | _ => acc)
    []

/-! ## h_lulu_filtering.aggregate_relations

Python dictionaries preserve insertion order, `d[k] = v` keeps the position
of an existing key and appends a fresh key at the end, and `del` removes an
entry.  They are modelled by association lists with exactly those update
rules. -/

/-- Membership test of the ordered dictionary model (`k in d`). -/
def dictContains {α : Type} (d : List (String × α)) (k : String) : Bool :=
  d.any (fun e => decide (e.1 = k))

/-- Lookup in the ordered dictionary model (`d[k]`), with a default for
absent keys (the code only looks up present keys). -/
def dictGet {α : Type} (d : List (String × α)) (k : String) (dflt : α) : α :=
  ((d.find? (fun e => decide (e.1 = k))).map Prod.snd).getD dflt

/-- Update of the ordered dictionary model (`d[k] = v`): replace in place if
the key is present, append at the end otherwise. -/
def dictSet {α : Type} : List (String × α) → String → α → List (String × α)
  | [], k, v => [(k, v)]
  | e :: rest, k, v => if e.1 = k then (k, v) :: rest else e :: dictSet rest k v

/-- Deletion from the ordered dictionary model (`del d[k]`). -/
def dictRemove {α : Type} (d : List (String × α)) (k : String) : List (String × α) :=
  d.filter (fun e => decide (e.1 ≠ k))

/-- One step of the aggregation loop of `aggregate_relations`, processing a
`(daughter, parent)` pair against the `all_parents` dictionary. -/
def aggStep (ap : List (String × List String)) (dp : String × String) :
    List (String × List String) :=
  if dictContains ap dp.1 then
    if dictContains ap dp.2 then
      dictRemove (dictSet ap dp.2 (dictGet ap dp.2 [] ++ [dp.1] ++ dictGet ap dp.1 [])) dp.1
    else dictSet ap dp.2 ([dp.1] ++ dictGet ap dp.1 [])
  else
    if dictContains ap dp.2 then dictSet ap dp.2 (dictGet ap dp.2 [] ++ [dp.1])
    else dictSet ap dp.2 [dp.1]

/-- Aggregation of the direct daughter → parent relations: process the
relations in reversed insertion order building the `all_parents` dictionary,
then flatten it back into a daughter → parent mapping (later entries
overwrite earlier ones, as repeated `output[daughter] = parent` assignments
do). -/
def aggregate_relations (relations : List (String × String)) : List (String × String) :=
  let ap := relations.reverse.foldl aggStep []
  ap.foldl (fun out e => e.2.foldl (fun out d => dictSet out d e.1) out) []

/-- Application of the aggregated mapping to an id:
`relations[otu] if otu in relations else otu`. -/
def applyMap (m : List (String × String)) (x : String) : String :=
  ((m.find? (fun e => decide (e.1 = x))).map Prod.snd).getD x

/-! ## Curation of the read table (h_lulu_filtering.main, reindex + groupby)

`main` replaces every row id by its mapped parent (ids without a mapping
stay) and then sums the rows sharing an id
(`data_table.groupby(data_table.index, sort=False).sum()`). -/

/-- Element-wise sum of two read-count rows. -/
def vecAdd (a b : List ℕ) : List ℕ := a.zipWith (· + ·) b

/-- Groupby-sum over a table keyed by row ids, keeping the order of first
appearance (`groupby(..., sort=False).sum()`). -/
def groupbySum : List (String × List ℕ) → List (String × List ℕ)
  | [] => []
  | e :: rest =>
    (e.1, (rest.filter (fun r => decide (r.1 = e.1))).foldl (fun acc r => vecAdd acc r.2) e.2)
      :: groupbySum (rest.filter (fun r => decide (r.1 ≠ e.1)))
termination_by l => l.length
decreasing_by
  simp only [List.length_cons]
  exact Nat.lt_succ_of_le (List.length_filter_le _ _)

/-- Curated table: remap every row id through the aggregated relations and
re-aggregate by groupby sum. -/
def curate_table (relations : List (String × String)) (table : List (String × List ℕ)) :
    List (String × List ℕ) :=
  groupbySum (table.map (fun r => (applyMap relations r.1, r.2)))

/-- Total read count of one sample column over a table. -/
def colSum (table : List (String × List ℕ)) (s : ℕ) : ℕ :=
  (table.map (fun r => r.2.getD s 0)).sum

/-- Total read count of a row over all samples (`read_count` of
`load_data_table`, the secondary sort key of the table). -/
def readCount (r : Row) : ℕ := r.reads.sum

/-- Concrete data table over two samples, sorted by occurrence and read
count descending exactly as `load_data_table` orders it: a chain of
parents p ← x ← k ← y (each candidate is 10-fold more abundant than its
daughter and present in the same samples) and a rare sequence z present in
the second sample only. -/
def exTable : List Row :=
  [⟨"p", [1000, 1000]⟩, ⟨"x", [100, 100]⟩, ⟨"k", [10, 10]⟩,
    ⟨"y", [1, 1]⟩, ⟨"z", [0, 1]⟩]

/-- Concrete match list for `exTable` (in table order, as `load_matches`
sorts it): x matches p, k matches x, y matches k, z matches p. -/
def exMatchList : List (String × List String) :=
  [("x", ["p"]), ("k", ["x"]), ("y", ["k"]), ("z", ["p"])]

/-! ## j_generate_read_table.parse_fasta_data and the sequence catalog

`parse_fasta_data` yields, for one size-annotated input file, the sample
name, hash, sequence and count of each record, always preceded by the
reserved `empty_seq` sentinel record with count 0.  `index_data_to_hdf`
scans all files in order and assigns each previously unseen hash the next
dense `hash_idx` (the `seq_hash_to_idx` dictionary). -/

/-- Size-annotated input file of one sample: each record carries the
sequence hash, the sequence text and the `;size=` count. -/
structure InputFile where
  sample : String
  records : List (String × String × ℕ)
deriving DecidableEq

/-- Records yielded for one input file:
(sample name, hash, sequence, count), with the sentinel record first. -/
def parse_fasta_data (f : InputFile) : List (String × String × String × ℕ) :=
  (f.sample, "empty_seq", "empty_seq", 0) ::
    f.records.map (fun r => (f.sample, r.1, r.2.1, r.2.2))

/-- Catalog insertion of `index_data_to_hdf`: a new hash is appended with
the next dense index (`hash_idx` equals the number of hashes already
assigned), a known hash leaves the catalog unchanged. -/
def catInsert (cat : List (String × ℕ)) (h : String) : List (String × ℕ) :=
  if cat.any (fun e => decide (e.1 = h)) then cat else cat ++ [(h, cat.length)]

/-- Sequence catalog (`seq_hash_to_idx`) built by scanning the input files
in the given order, record by record. -/
def seq_hash_to_idx (files : List InputFile) : List (String × ℕ) :=
  (files.flatMap parse_fasta_data).foldl (fun cat r => catInsert cat r.2.1) []

/-! ## j_generate_read_table.generate_fasta

The per-sequence read counts are summed (`groupby hash_idx`), merged with
the sequence data and sorted by total read count descending; the position
in the sorted frame is the `fasta_order` rank.  The sort key is the read
count only.  Content hashes are modelled as `ℕ` values so that the hash
ordering claimed by the specification is expressible; the reserved value
`empty_seq_hash` stands for the `empty_seq` sentinel hash. -/

/-- Catalogued sequence of the data storage: dense index, content hash and
sequence text. -/
structure CatEntry where
  idx : ℕ
  hash : ℕ
  seq : String
deriving DecidableEq

/-- Read-count fact of the data storage: (hash_idx, sample_idx, read_count). -/
structure Fact where
  idx : ℕ
  sampleIdx : ℕ
  count : ℕ
deriving DecidableEq

/-- Reserved hash value of the `empty_seq` sentinel record. -/
def empty_seq_hash : ℕ := 0

/-- Total abundance of a sequence: sum of its read counts over all facts
(`read_count_data.groupby(by=["hash_idx"]).sum()`). -/
def totalReads (facts : List Fact) (i : ℕ) : ℕ :=
  ((facts.filter (fun f => decide (f.idx = i))).map (fun f => f.count)).sum

/-- Row of the sorted fasta frame: index, total read count, hash, sequence. -/
structure FastaRow where
  idx : ℕ
  total : ℕ
  hash : ℕ
  seq : String
deriving DecidableEq

/-- Insertion step of the stable descending sort by total read count. -/
def insertByTotal (r : FastaRow) : List FastaRow → List FastaRow
  | [] => [r]
  | x :: xs => if r.total < x.total then x :: insertByTotal r xs else r :: x :: xs

/-- Stable sort of the fasta frame by total read count descending
(`fasta_data.sort_values(by=["read_count"], ascending=False)`); rows of
equal total keep their previous (catalog) relative order. -/
def sortByTotalDesc : List FastaRow → List FastaRow
  | [] => []
  | x :: xs => insertByTotal x (sortByTotalDesc xs)

/-- Sorted fasta frame of `generate_fasta`: every catalogued sequence with
its total read count, ordered by total descending; the position of a row is
its `fasta_order`. -/
def generate_fasta (cat : List CatEntry) (facts : List Fact) : List FastaRow :=
  sortByTotalDesc (cat.map (fun e => ⟨e.idx, totalReads facts e.idx, e.hash, e.seq⟩))

/-! ## Stage sequencing of j_generate_read_table.main

`main` indexes the data, generates the fasta, generates the read tables if
requested, and only then checks the sequence group threshold: a threshold
`≥ 1`, `≤ 0` or NaN merely prints a message and skips the grouping stage. -/

/-- Pipeline stages driven by `main` of the read-table module. -/
inductive Stage where
  | indexing
  | fastaGeneration
  | readTable
  | grouping
deriving DecidableEq

/-- Settings of the read-table module relevant to stage sequencing. -/
structure ReadTableSettings where
  perform : Bool
  groupThreshold : ℚ
deriving DecidableEq

/-- Stages executed by `main`, in order: indexing and fasta generation
always run first, the read tables run when requested, and the grouping
stage runs only for a threshold strictly between 0 and 1 (otherwise it is
skipped with a message). -/
def mainStages (s : ReadTableSettings) : List Stage :=
  [Stage.indexing, Stage.fastaGeneration]
    ++ (if s.perform then [Stage.readTable] else [])
    ++ (if 1 ≤ s.groupThreshold then []
        else if s.groupThreshold ≤ 0 then []
        else [Stage.grouping])

/-! ## j_generate_read_table.generate_sequence_groups

The grouping pass visits the fasta rows in `fasta_order`.  For the current
sequence it queries the `groups_found` match rows for the earliest-ranked
seed that lists it as a target (`ORDER BY fasta_order_query LIMIT 1`); if
none exists the sequence becomes a seed itself: its own match rows are
inserted into `groups_found` and it is assigned to itself. -/

/-- Earliest-ranked candidate of a list of queries
(`ORDER BY fasta_order_query LIMIT 1`). -/
def argminByOrd (ordOf : ℕ → ℕ) : List ℕ → Option ℕ
  | [] => none
  | q :: qs =>
    match argminByOrd ordOf qs with
    | none => some q
    | some q0 => if ordOf q ≤ ordOf q0 then some q else some q0

/-- State of the grouping pass: the `groups_found` match rows
(query, target) and the accumulated (hash_idx, group_idx) assignments. -/
structure GroupState where
  groupsFound : List (ℕ × ℕ)
  assignments : List (ℕ × ℕ)

/-- One step of the grouping pass for the sequence `s`. -/
def groupStep (matchfile : List (ℕ × ℕ)) (ordOf : ℕ → ℕ) (st : GroupState) (s : ℕ) :
    GroupState :=
  match argminByOrd ordOf ((st.groupsFound.filter (fun r => decide (r.2 = s))).map Prod.fst) with
  | some q => ⟨st.groupsFound, st.assignments ++ [(s, q)]⟩
  | none =>
    ⟨st.groupsFound ++ matchfile.filter (fun r => decide (r.1 = s)),
      st.assignments ++ [(s, s)]⟩

/-- Group assignments produced by the grouping pass over the sequences in
`fasta_order`. -/
def generate_sequence_groups (matchfile : List (ℕ × ℕ)) (seqs : List ℕ)
    (ordOf : ℕ → ℕ) : List (ℕ × ℕ) :=
  (seqs.foldl (groupStep matchfile ordOf) ⟨[], []⟩).assignments

/-! ## j_generate_read_table.generate_read_table

One part of the wide read table: the cross product of the part's samples
with all sequences is filled with the read counts (missing pairs become 0)
and pivoted — the pivot sorts its index, i.e. `hash_idx` ascending — then
the rows are re-sorted by the position of their sequence in the fasta frame
and the last row (the `empty_seq` sentinel) is dropped. -/

/-- Read count of one (sequence, sample) cell: the summed facts of the
pair, 0 when there is none (`fillna(0)`). -/
def pivotCount (facts : List Fact) (i : ℕ) (sIdx : ℕ) : ℕ :=
  ((facts.filter (fun f => decide (f.idx = i ∧ f.sampleIdx = sIdx))).map
    (fun f => f.count)).sum

/-- Row of the pivoted wide read table: sequence index, hash and the cells
of the part's sample columns. -/
structure TableRow where
  idx : ℕ
  hash : ℕ
  cells : List ℕ
deriving DecidableEq

/-- Insertion step of the stable ascending sort of table rows by a key. -/
def insertRowBy (k : TableRow → ℕ) (r : TableRow) : List TableRow → List TableRow
  | [] => [r]
  | x :: xs => if k x < k r then x :: insertRowBy k r xs else r :: x :: xs

/-- Stable ascending sort of table rows by a key. -/
def sortRowsBy (k : TableRow → ℕ) : List TableRow → List TableRow
  | [] => []
  | x :: xs => insertRowBy k x (sortRowsBy k xs)

/-- Position of a sequence index in the fasta frame (its `fasta_order`,
used as the `order` column merged in for the final sort). -/
def fastaPos (fasta : List FastaRow) (i : ℕ) : ℕ :=
  List.indexOf i (fasta.map (fun r => r.idx))

/-- One saved part of the wide read table: rows
(hash, per-sample read counts) of all sequences except the sentinel,
ordered by `fasta_order` (pivot sorted by `hash_idx`, then re-sorted by the
merged `order` column, then `head(-1)`). -/
def generate_read_table (samples : List (ℕ × String)) (fasta : List FastaRow)
    (facts : List Fact) : List (ℕ × List ℕ) :=
  let pivot := sortRowsBy (fun r => r.idx)
    (fasta.map (fun q => TableRow.mk q.idx q.hash
      (samples.map (fun s => pivotCount facts q.idx s.1))))
  let ordered := sortRowsBy (fun r => fastaPos fasta r.idx) pivot
  (ordered.map (fun r => (r.hash, r.cells))).dropLast

/-! # Theorems -/

/-! ## C1: the relative co-occurrence value -/

/-- C1, counterexample: the relative co-occurrence computed by the
acceptance test differs from the value stated in the specification.  For a
daughter present in samples 1 and 2 and a candidate parent present in
samples 1 and 3, the code computes 2/1 = 2 (daughter-sample count over
joint count) while the specification's fraction is 1/2 (joint count over
the candidate's nonzero-sample count). -/
theorem c1_rel_co_differs_from_spec :
    rel_co [1, 1, 0] [5, 0, 7] ≠ relCoSpec [1, 1, 0] [5, 0, 7] := by
  norm_num [rel_co, relCoSpec, relCoDen, compFrame]

/-- C1, amended: when the denominator is nonzero, the relative
co-occurrence computed by the acceptance test equals the number of samples
where the daughter has nonzero reads divided by the number of samples where
both the daughter and the candidate have nonzero reads (the reciprocal of
the fraction of the daughter's samples that also contain the candidate) —
not the specification's joint count over the candidate's nonzero-sample
count. -/
theorem c1_rel_co_code_value (d p : List ℕ) (h : relCoDen d p ≠ 0) :
    rel_co d p =
      (((d.zip p).filter (fun r => decide (0 < r.1))).length : ℚ) /
        (((d.zip p).filter (fun r => decide (0 < r.1 ∧ r.2 ≠ 0))).length : ℚ) := by
  have hden : (compFrame d p).filter (fun r => decide (r.2 ≠ 0))
      = (d.zip p).filter (fun r => decide (0 < r.1 ∧ r.2 ≠ 0)) := by
    simp only [compFrame, List.filter_filter]
    apply List.filter_congr
    intro a _
    simp [Bool.and_comm]
  unfold rel_co
  rw [if_neg h]
  unfold relCoDen
  rw [hden]
  rfl

/-- C1, witness for the amended theorem at a concrete input. -/
theorem c1_rel_co_code_value_witness :
    relCoDen [1] [2] ≠ 0 ∧
      rel_co [1] [2] =
        ((([1].zip [2]).filter (fun r => decide (0 < r.1))).length : ℚ) /
          ((([1].zip [2]).filter (fun r => decide (0 < r.1 ∧ r.2 ≠ 0))).length : ℚ) :=
  ⟨by decide, c1_rel_co_code_value [1] [2] (by decide)⟩

/-! ## C2: threshold boundary of the acceptance test -/

/-- C2, counterexample: a candidate parent whose relative co-occurrence is
exactly equal to the configured minimum is rejected, not accepted — the
comparisons of the acceptance test are strict.  Here the co-occurrence is
exactly 1 with a configured minimum of 1 (and the abundance ratio 5 would
pass), yet the candidate is rejected. -/
theorem c2_at_threshold_rejected :
    rel_co [1, 1] [5, 5] = 1 ∧
      check_daughter ⟨"d", [1, 1]⟩ [⟨"p", [5, 5]⟩] (fun _ => 2) 1 1 = Except.ok none := by
  constructor
  · norm_num [rel_co, relCoDen, compFrame]
  · norm_num [check_daughter, potParents, checkDaughterGo, rel_co, relCoDen, compFrame]

/-- C2, amended: the threshold comparisons of the acceptance test are
exclusive.  A single candidate parent is accepted if and only if its
relative co-occurrence strictly exceeds the configured minimum
co-occurrence and its minimum per-sample abundance ratio strictly exceeds
the configured minimum ratio; a candidate exactly at either threshold (and
a fortiori one unit below) is rejected. -/
theorem c2_acceptance_iff_strictly_above (d p : Row) (minRelCo minRatio m : ℚ)
    (hname : p.name ≠ "") (hmin : pyMin (abRatios d.reads p.reads) = some m) :
    checkDaughterGo d minRelCo minRatio [p] =
        Except.ok (some (d.name, p.name, rel_co d.reads p.reads, m)) ↔
      minRelCo < rel_co d.reads p.reads ∧ minRatio < m := by
  simp only [checkDaughterGo, hmin, if_neg hname]
  by_cases h1 : minRelCo < rel_co d.reads p.reads
  · rw [if_pos h1]
    by_cases h2 : minRatio < m
    · simp [h1, h2]
    · simp [h1, h2]
  · rw [if_neg h1]
    simp [h1, checkDaughterGo]

/-- C2, witness for the amended theorem at a concrete input. -/
theorem c2_acceptance_iff_strictly_above_witness :
    checkDaughterGo ⟨"d", [1]⟩ (1/2) 1 [⟨"p", [2]⟩] =
        Except.ok (some ("d", "p", rel_co [1] [2], 2)) ↔
      (1:ℚ)/2 < rel_co [1] [2] ∧ (1:ℚ) < 2 :=
  c2_acceptance_iff_strictly_above ⟨"d", [1]⟩ ⟨"p", [2]⟩ (1/2) 1 2 (by decide)
    (by norm_num [pyMin, abRatios, compFrame])

/-! ## C6: zero co-occurrence denominator -/

/-- C6: when the co-occurrence denominator is zero (the candidate parent
has no nonzero reads in the samples where the daughter is present), no
division error propagates: with a non-negative configured minimum
co-occurrence the candidate is rejected and evaluation continues with the
next candidate. -/
theorem c6_zero_denominator_skipped (d p : Row) (rest : List Row) (minRelCo minRatio : ℚ)
    (hden : relCoDen d.reads p.reads = 0) (hpos : 0 ≤ minRelCo) :
    checkDaughterGo d minRelCo minRatio (p :: rest) =
      checkDaughterGo d minRelCo minRatio rest := by
  have hrc : rel_co d.reads p.reads = 0 := by simp [rel_co, hden]
  by_cases hname : p.name = ""
  · simp [checkDaughterGo, hname]
  · have hlt : ¬ minRelCo < rel_co d.reads p.reads := by
      rw [hrc]; exact not_lt.mpr hpos
    simp [checkDaughterGo, hname, hlt]

/-- C6, witness at a concrete input: a candidate with zero reads in the
daughter's samples is skipped. -/
theorem c6_zero_denominator_skipped_witness :
    relCoDen [1] [0] = 0 ∧ (0:ℚ) ≤ 1/2 ∧
      checkDaughterGo ⟨"d", [1]⟩ (1/2) 1 [⟨"p", [0]⟩] =
        checkDaughterGo ⟨"d", [1]⟩ (1/2) 1 [] :=
  ⟨by decide, by norm_num,
    c6_zero_denominator_skipped ⟨"d", [1]⟩ ⟨"p", [0]⟩ [] (1/2) 1 (by decide) (by norm_num)⟩

/-! ## C3: idempotence of the aggregated mapping -/

/-- Evaluation of the acceptance test over the concrete table and match
list with minimum relative co-occurrence 95% and minimum ratio 1 (the
default thresholds): every daughter accepts its 10-fold more abundant
match, giving the chain x → p, k → x, y → k plus z → p. -/
theorem buildRelations_exTable :
    buildRelations exTable exMatchList (19/20) 1 =
      [("x", "p"), ("k", "x"), ("y", "k"), ("z", "p")] := by
  norm_num [buildRelations, exTable, exMatchList, check_daughter, checkDaughterGo,
    potParents, rowNamed, hitFrameFor, occurrence, rel_co, relCoDen, compFrame,
    abRatios, pyMin, List.find?, List.filter]
  decide

/-- C3, failing input: the daughter → parent relations produced by the
acceptance test on `exTable` / `exMatchList` (whose table is sorted by
occurrence and read count descending, as the pipeline orders it) yield an
aggregated mapping that is not idempotent: y is mapped to k while k itself
is mapped to p, so applying the mapping to the mapped value of y changes it
again — the transitive chain y → k → x → p is not resolved to its root,
contradicting the stated guarantee (and the aggregation's own description). -/
theorem c3_aggregated_mapping_not_idempotent :
    List.Pairwise
        (fun a b => occurrence b < occurrence a ∨
          (occurrence b = occurrence a ∧ readCount b ≤ readCount a)) exTable ∧
      applyMap (aggregate_relations (buildRelations exTable exMatchList (19/20) 1))
          (applyMap (aggregate_relations (buildRelations exTable exMatchList (19/20) 1)) "y")
        ≠ applyMap (aggregate_relations (buildRelations exTable exMatchList (19/20) 1)) "y" := by
  constructor
  · decide
  · rw [buildRelations_exTable]
    decide

/-! ## C4: conservation of per-sample read counts under curation -/

/-- Renaming row ids does not change a column sum. -/
theorem colSum_map_rename (f : String → String) (table : List (String × List ℕ)) (s : ℕ) :
    colSum (table.map (fun r => (f r.1, r.2))) s = colSum table s := by
  simp [colSum, List.map_map]
  rfl

/-- Column access distributes over the element-wise row sum (for rows of
equal length). -/
theorem getD_vecAdd (a b : List ℕ) (s : ℕ) (h : a.length = b.length) :
    (vecAdd a b).getD s 0 = a.getD s 0 + b.getD s 0 := by
  induction a generalizing b s with
  | nil =>
    have : b = [] := List.eq_nil_of_length_eq_zero h.symm
    simp [this, vecAdd]
  | cons x xs ih =>
    cases b with
    | nil => simp at h
    | cons y ys =>
      cases s with
      | zero => simp [vecAdd]
      | succ n =>
        simpa [vecAdd, List.getD] using ih ys n (by simpa using h)

/-- Element-wise row sums preserve the row length (for rows of equal
length). -/
theorem vecAdd_length (a b : List ℕ) (h : a.length = b.length) :
    (vecAdd a b).length = a.length := by
  simp [vecAdd, h]

/-- Column access of the fold summing a group of rows: the group total of a
column is the seed's cell plus the column sum of the group. -/
theorem getD_foldl_vecAdd (l : List (String × List ℕ)) (L s : ℕ) :
    ∀ init : List ℕ, init.length = L → (∀ r ∈ l, r.2.length = L) →
      (l.foldl (fun acc r => vecAdd acc r.2) init).getD s 0 = init.getD s 0 + colSum l s := by
  induction l with
  | nil => intro init _ _; simp [colSum]
  | cons r rest ih =>
    intro init hinit hl
    have hr : r.2.length = L := hl r (by simp)
    have h1 : (vecAdd init r.2).length = L := by
      rw [vecAdd_length init r.2 (by rw [hinit, hr])]; exact hinit
    have := ih (vecAdd init r.2) h1 (fun q hq => hl q (by simp [hq]))
    rw [List.foldl_cons, this, getD_vecAdd init r.2 s (by rw [hinit, hr])]
    simp [colSum]
    ring

/-- Column sums add over list appends. -/
theorem colSum_append (l₁ l₂ : List (String × List ℕ)) (s : ℕ) :
    colSum (l₁ ++ l₂) s = colSum l₁ s + colSum l₂ s := by
  simp [colSum]

/-- Column sums are invariant under permutation. -/
theorem colSum_perm {l₁ l₂ : List (String × List ℕ)} (h : l₁.Perm l₂) (s : ℕ) :
    colSum l₁ s = colSum l₂ s :=
  (h.map _).sum_eq

/-- Splitting a table by a predicate splits its column sums. -/
theorem colSum_filter_split (l : List (String × List ℕ)) (p : String × List ℕ → Bool) (s : ℕ) :
    colSum l s = colSum (l.filter p) s + colSum (l.filter (fun r => !p r)) s := by
  rw [← colSum_append, colSum_perm (List.filter_append_perm p l) s]

/-- Groupby-sum preserves every column sum (for a table of uniform row
length). -/
theorem colSum_groupbySum (t : List (String × List ℕ)) (L s : ℕ)
    (hL : ∀ r ∈ t, r.2.length = L) :
    colSum (groupbySum t) s = colSum t s := by
  induction t using groupbySum.induct with
  | case1 => simp [groupbySum]
  | case2 e rest ih =>
    rw [groupbySum]
    have he : e.2.length = L := hL e (by simp)
    have hgrp : ∀ r ∈ rest.filter (fun r => decide (r.1 = e.1)), r.2.length = L :=
      fun r hr => hL r (by simp [List.mem_filter.mp hr |>.1])
    have hrest : ∀ r ∈ rest.filter (fun r => decide (r.1 ≠ e.1)), r.2.length = L :=
      fun r hr => hL r (by simp [List.mem_filter.mp hr |>.1])
    have hsplit := colSum_filter_split rest (fun r => decide (r.1 = e.1)) s
    have hneged : (fun r : String × List ℕ => !decide (r.1 = e.1))
        = (fun r : String × List ℕ => decide (r.1 ≠ e.1)) := by
      funext r; simp
    rw [hneged] at hsplit
    have hfold := getD_foldl_vecAdd (rest.filter (fun r => decide (r.1 = e.1))) L s e.2 he hgrp
    simp only [colSum, List.map_cons, List.sum_cons] at *
    rw [hfold, ih hrest]
    rw [hsplit]
    ring

/-- C4: curation conserves every sample's total read count.  Remapping the
row ids of a table of uniform row length through the aggregated relations
and re-aggregating by groupby sum leaves every column sum unchanged — no
reads are created or destroyed. -/
theorem c4_curation_conserves_column_sums (relations : List (String × String))
    (table : List (String × List ℕ)) (L s : ℕ) (hL : ∀ r ∈ table, r.2.length = L) :
    colSum (curate_table relations table) s = colSum table s := by
  unfold curate_table
  rw [colSum_groupbySum _ L s (by
    intro r hr
    obtain ⟨q, hq, rfl⟩ := List.mem_map.mp hr
    exact hL q hq)]
  exact colSum_map_rename _ table s

/-- C4, witness at a concrete input. -/
theorem c4_curation_conserves_column_sums_witness :
    (∀ r ∈ [("a", [1, 2]), ("b", [3, 4])], r.2.length = 2) ∧
      colSum (curate_table [("b", "a")] [("a", [1, 2]), ("b", [3, 4])]) 0 =
        colSum [("a", [1, 2]), ("b", [3, 4])] 0 :=
  ⟨by decide,
    c4_curation_conserves_column_sums [("b", "a")] [("a", [1, 2]), ("b", [3, 4])] 2 0
      (by decide)⟩

/-! ## C5: dependence of the catalogs on input-file order -/

/-- C5, counterexample: the sequence catalog is not independent of the
input-file processing order.  Two single-record files presented in the two
possible orders produce different catalogs, because the dense ids are
assigned in encounter order, not derived from the content hash. -/
theorem c5_catalog_depends_on_file_order :
    seq_hash_to_idx [⟨"s1", [("h1", "AAAA", 1)]⟩, ⟨"s2", [("h2", "CCCC", 1)]⟩] ≠
      seq_hash_to_idx [⟨"s2", [("h2", "CCCC", 1)]⟩, ⟨"s1", [("h1", "AAAA", 1)]⟩] := by
  decide

/-- Keys of the catalog after one insertion. -/
theorem mem_keys_catInsert (cat : List (String × ℕ)) (h x : String) :
    x ∈ (catInsert cat h).map Prod.fst ↔ x ∈ cat.map Prod.fst ∨ x = h := by
  unfold catInsert
  by_cases hc : cat.any (fun e => decide (e.1 = h))
  · rw [if_pos hc]
    simp only [List.any_eq_true, decide_eq_true_eq] at hc
    obtain ⟨e, he, heq⟩ := hc
    constructor
    · exact Or.inl
    · rintro (hx | rfl)
      · exact hx
      · exact List.mem_map.mpr ⟨e, he, heq⟩
  · rw [if_neg hc]
    simp

/-- Keys of the catalog built by folding insertions over a record list: the
hashes of the seed catalog together with the hashes of the records. -/
theorem mem_keys_foldl_catInsert (l : List (String × String × String × ℕ)) :
    ∀ (cat : List (String × ℕ)) (x : String),
      x ∈ ((l.foldl (fun c r => catInsert c r.2.1) cat).map Prod.fst) ↔
        x ∈ cat.map Prod.fst ∨ x ∈ l.map (fun r => r.2.1) := by
  induction l with
  | nil => simp
  | cons r rest ih =>
    intro cat x
    rw [List.foldl_cons, ih, mem_keys_catInsert]
    simp only [List.map_cons, List.mem_cons]
    tauto

/-- C5, amended: for fixed thresholds the run is deterministic only up to
the input-file processing order.  Two runs over the same files in different
orders produce sequence catalogs containing the same set of hashes (and the
counterexample shows the assigned dense ids — hence the persisted bytes —
can differ, because ids are assigned in encounter order rather than derived
from the content hash). -/
theorem c5_catalog_hash_set_independent_of_order (files files' : List InputFile)
    (h : files.Perm files') :
    ((seq_hash_to_idx files).map Prod.fst).toFinset =
      ((seq_hash_to_idx files').map Prod.fst).toFinset := by
  have hp : (files.flatMap parse_fasta_data).Perm (files'.flatMap parse_fasta_data) :=
    h.flatMap_right parse_fasta_data
  ext x
  simp only [List.mem_toFinset, seq_hash_to_idx, mem_keys_foldl_catInsert, List.map_nil,
    List.not_mem_nil, false_or]
  exact (hp.map (fun r => r.2.1)).mem_iff

/-- C5, witness for the amended theorem at a concrete permutation. -/
theorem c5_catalog_hash_set_independent_of_order_witness :
    ([⟨"s1", [("h1", "AAAA", 1)]⟩, ⟨"s2", [("h2", "CCCC", 1)]⟩] : List InputFile).Perm
        [⟨"s2", [("h2", "CCCC", 1)]⟩, ⟨"s1", [("h1", "AAAA", 1)]⟩] ∧
      ((seq_hash_to_idx [⟨"s1", [("h1", "AAAA", 1)]⟩, ⟨"s2", [("h2", "CCCC", 1)]⟩]).map
          Prod.fst).toFinset =
        ((seq_hash_to_idx [⟨"s2", [("h2", "CCCC", 1)]⟩, ⟨"s1", [("h1", "AAAA", 1)]⟩]).map
          Prod.fst).toFinset :=
  ⟨List.Perm.swap _ _ _,
    c5_catalog_hash_set_independent_of_order _ _ (List.Perm.swap _ _ _)⟩

/-! ## C7: handling of an out-of-range grouping threshold -/

/-- C7, counterexample: an out-of-range sequence-grouping threshold is not
fatal before any work starts.  With a threshold of 2 (≥ 1) the indexing,
fasta-generation and read-table stages all still run. -/
theorem c7_out_of_range_threshold_not_fatal :
    (1:ℚ) ≤ 2 ∧ Stage.indexing ∈ mainStages ⟨true, 2⟩ ∧
      Stage.readTable ∈ mainStages ⟨true, 2⟩ := by
  norm_num [mainStages]

/-- C7, amended: an out-of-range sequence-grouping threshold (at least 1,
or at most 0) is detected only after indexing has run, and is not fatal:
the grouping stage alone is skipped (with a message) while the indexing
stage still executes. -/
theorem c7_out_of_range_threshold_skips_grouping (s : ReadTableSettings)
    (h : 1 ≤ s.groupThreshold ∨ s.groupThreshold ≤ 0) :
    Stage.grouping ∉ mainStages s ∧ Stage.indexing ∈ mainStages s := by
  have hg : (if 1 ≤ s.groupThreshold then ([] : List Stage)
      else if s.groupThreshold ≤ 0 then [] else [Stage.grouping]) = [] := by
    rcases h with h | h
    · rw [if_pos h]
    · by_cases h1 : 1 ≤ s.groupThreshold
      · rw [if_pos h1]
      · rw [if_neg h1, if_pos h]
  unfold mainStages
  rw [hg]
  cases hp : s.perform <;> simp

/-- C7, witness for the amended theorem at a concrete configuration. -/
theorem c7_out_of_range_threshold_skips_grouping_witness :
    Stage.grouping ∉ mainStages ⟨true, 2⟩ ∧ Stage.indexing ∈ mainStages ⟨true, 2⟩ :=
  c7_out_of_range_threshold_skips_grouping ⟨true, 2⟩ (Or.inl (by norm_num))

/-! ## C8: the fasta ordering -/

/-- C8, counterexample: the rank assigned by `generate_fasta` does not
break abundance ties by hash ascending.  Two sequences of equal total
abundance 5 keep their catalog (encounter) order: the sequence with hash 2
is ranked before the sequence with hash 1 although 1 < 2. -/
theorem c8_ties_not_broken_by_hash :
    generate_fasta [⟨0, 2, "TTTT"⟩, ⟨1, 1, "GGGG"⟩] [⟨0, 0, 5⟩, ⟨1, 0, 5⟩] =
        [⟨0, 5, 2, "TTTT"⟩, ⟨1, 5, 1, "GGGG"⟩] ∧ (1:ℕ) < 2 := by
  constructor
  · decide
  · decide

/-- Insertion into the fasta frame is a permutation of consing. -/
theorem insertByTotal_perm (r : FastaRow) (l : List FastaRow) :
    (insertByTotal r l).Perm (r :: l) := by
  induction l with
  | nil => exact List.Perm.refl _
  | cons x xs ih =>
    rw [insertByTotal]
    by_cases hlt : r.total < x.total
    · rw [if_pos hlt]
      exact (ih.cons x).trans (List.Perm.swap r x xs)
    · rw [if_neg hlt]

/-- Insertion into a descending-sorted fasta frame keeps it sorted. -/
theorem insertByTotal_pairwise (r : FastaRow) (l : List FastaRow)
    (hl : List.Pairwise (fun a b => b.total ≤ a.total) l) :
    List.Pairwise (fun a b => b.total ≤ a.total) (insertByTotal r l) := by
  induction l with
  | nil => simp [insertByTotal]
  | cons x xs ih =>
    rw [List.pairwise_cons] at hl
    obtain ⟨hx, hxs⟩ := hl
    rw [insertByTotal]
    by_cases hlt : r.total < x.total
    · rw [if_pos hlt]
      rw [List.pairwise_cons]
      refine ⟨?_, ih hxs⟩
      intro y hy
      rcases List.mem_cons.mp ((insertByTotal_perm r xs).mem_iff.mp hy) with rfl | hy
      · exact le_of_lt hlt
      · exact hx y hy
    · rw [if_neg hlt]
      rw [List.pairwise_cons]
      refine ⟨?_, List.pairwise_cons.mpr ⟨hx, hxs⟩⟩
      intro y hy
      rcases List.mem_cons.mp hy with rfl | hy
      · exact not_lt.mp hlt
      · exact le_trans (hx y hy) (not_lt.mp hlt)

/-- The descending sort by total is sorted. -/
theorem sortByTotalDesc_pairwise (l : List FastaRow) :
    List.Pairwise (fun a b => b.total ≤ a.total) (sortByTotalDesc l) := by
  induction l with
  | nil => simp [sortByTotalDesc]
  | cons x xs ih => exact insertByTotal_pairwise x (sortByTotalDesc xs) ih

/-- The descending sort by total is a permutation of its input. -/
theorem sortByTotalDesc_perm (l : List FastaRow) : (sortByTotalDesc l).Perm l := by
  induction l with
  | nil => exact List.Perm.refl _
  | cons x xs ih =>
    exact (insertByTotal_perm x (sortByTotalDesc xs)).trans (ih.cons x)

/-- C8, amended: the rank assigned by `generate_fasta` is obtained by
sorting the catalogued sequences by total abundance descending only — the
output is a permutation of the catalog rows that is sorted by total read
count descending; abundance ties are not reordered by hash (they keep the
catalog order, as the counterexample shows). -/
theorem c8_fasta_sorted_by_total_desc (cat : List CatEntry) (facts : List Fact) :
    List.Pairwise (fun a b => b.total ≤ a.total) (generate_fasta cat facts) ∧
      (generate_fasta cat facts).Perm
        (cat.map (fun e => ⟨e.idx, totalReads facts e.idx, e.hash, e.seq⟩)) :=
  ⟨sortByTotalDesc_pairwise _, sortByTotalDesc_perm _⟩

/-! ## C10: the grouping invariant -/

/-- Result of the earliest-ranked selection is one of the candidates. -/
theorem argminByOrd_mem (ordOf : ℕ → ℕ) (l : List ℕ) (q : ℕ)
    (h : argminByOrd ordOf l = some q) : q ∈ l := by
  induction l generalizing q with
  | nil => simp [argminByOrd] at h
  | cons a as ih =>
    rw [argminByOrd] at h
    cases ha : argminByOrd ordOf as with
    | none =>
      rw [ha] at h
      simp only [Option.some.injEq] at h
      simp [h.symm]
    | some q0 =>
      rw [ha] at h
      dsimp only at h
      by_cases hle : ordOf a ≤ ordOf q0
      · rw [if_pos hle] at h
        simp only [Option.some.injEq] at h
        simp [h.symm]
      · rw [if_neg hle] at h
        simp only [Option.some.injEq] at h
        subst h
        exact List.mem_cons_of_mem a (ih q0 ha)

/-- Invariant of the grouping fold: at every point each `groups_found` row
was inserted by an already-processed seed that is assigned to itself, and
each assignment maps a sequence to a representative occurring no later in
the traversal; these properties are preserved to the end of the fold. -/
theorem groupFold_invariant (matchfile : List (ℕ × ℕ)) (ordOf : ℕ → ℕ) (seqs : List ℕ)
    (hnd : seqs.Nodup) :
    ∀ (rest pre : List ℕ) (st : GroupState),
      seqs = pre ++ rest →
      (∀ r ∈ st.groupsFound, r.1 ∈ pre) →
      (∀ a ∈ st.assignments,
        List.indexOf a.2 seqs ≤ List.indexOf a.1 seqs) →
      (∀ a ∈ st.assignments, (a.2, a.2) ∈ st.assignments) →
      (∀ r ∈ st.groupsFound, (r.1, r.1) ∈ st.assignments) →
      ∀ a ∈ (rest.foldl (groupStep matchfile ordOf) st).assignments,
        List.indexOf a.2 seqs ≤ List.indexOf a.1 seqs ∧
          (a.2, a.2) ∈ (rest.foldl (groupStep matchfile ordOf) st).assignments := by
  intro rest
  induction rest with
  | nil =>
    intro pre st hseq hgf hidx hself hgfself a ha
    rw [List.foldl_nil] at ha
    exact ⟨hidx a ha, hself a ha⟩
  | cons s rest ih =>
    intro pre st hseq hgf hidx hself hgfself a ha
    have hs_not_pre : s ∉ pre := by
      have := hseq ▸ hnd
      rw [List.nodup_append] at this
      exact fun hs => this.2.2 hs (List.mem_cons_self s rest)
    have hidx_s : List.indexOf s seqs = pre.length := by
      rw [hseq, List.indexOf_append_of_not_mem hs_not_pre, List.indexOf_cons_self]
      omega
    have hidx_pre : ∀ q ∈ pre, List.indexOf q seqs < pre.length := by
      intro q hq
      rw [hseq, List.indexOf_append_of_mem hq]
      exact List.indexOf_lt_length.mpr hq
    rw [List.foldl_cons] at ha ⊢
    have hseq' : seqs = (pre ++ [s]) ++ rest := by rw [hseq]; simp
    cases hpick : argminByOrd ordOf
        ((st.groupsFound.filter (fun r => decide (r.2 = s))).map Prod.fst) with
    | some q =>
      have hstep : groupStep matchfile ordOf st s =
          ⟨st.groupsFound, st.assignments ++ [(s, q)]⟩ := by
        rw [groupStep, hpick]
      rw [hstep] at ha ⊢
      have hq_pre : q ∈ pre := by
        have hqmem := argminByOrd_mem ordOf _ q hpick
        obtain ⟨r, hr, hrq⟩ := List.mem_map.mp hqmem
        have hrgf := (List.mem_filter.mp hr).1
        exact hrq ▸ hgf r hrgf
      have hqq : (q, q) ∈ st.assignments := by
        have hqmem := argminByOrd_mem ordOf _ q hpick
        obtain ⟨r, hr, hrq⟩ := List.mem_map.mp hqmem
        have hrgf := (List.mem_filter.mp hr).1
        exact hrq ▸ hgfself r hrgf
      apply ih (pre ++ [s]) _ hseq'
      · intro r hr
        exact List.mem_append_left _ (hgf r hr)
      · intro b hb
        rcases List.mem_append.mp hb with hb | hb
        · exact hidx b hb
        · rcases List.mem_singleton.mp hb with rfl
          exact le_of_lt (hidx_s ▸ hidx_pre q hq_pre)
      · intro b hb
        rcases List.mem_append.mp hb with hb | hb
        · exact List.mem_append_left _ (hself b hb)
        · rcases List.mem_singleton.mp hb with rfl
          exact List.mem_append_left _ hqq
      · intro r hr
        exact List.mem_append_left _ (hgfself r hr)
      · exact ha
    | none =>
      have hstep : groupStep matchfile ordOf st s =
          ⟨st.groupsFound ++ matchfile.filter (fun r => decide (r.1 = s)),
            st.assignments ++ [(s, s)]⟩ := by
        rw [groupStep, hpick]
      rw [hstep] at ha ⊢
      apply ih (pre ++ [s]) _ hseq'
      · intro r hr
        rcases List.mem_append.mp hr with hr | hr
        · exact List.mem_append_left _ (hgf r hr)
        · have := (List.mem_filter.mp hr).2
          simp only [decide_eq_true_eq] at this
          rw [this]
          exact List.mem_append_right _ (List.mem_singleton_self s)
      · intro b hb
        rcases List.mem_append.mp hb with hb | hb
        · exact hidx b hb
        · rcases List.mem_singleton.mp hb with rfl
          exact le_refl _
      · intro b hb
        rcases List.mem_append.mp hb with hb | hb
        · exact List.mem_append_left _ (hself b hb)
        · rcases List.mem_singleton.mp hb with rfl
          exact List.mem_append_right _ (List.mem_singleton_self _)
      · intro r hr
        rcases List.mem_append.mp hr with hr | hr
        · exact List.mem_append_left _ (hgfself r hr)
        · have := (List.mem_filter.mp hr).2
          simp only [decide_eq_true_eq] at this
          rw [this]
          exact List.mem_append_right _ (List.mem_singleton_self _)
      · exact ha

/-- C10: invariant of the group assignment.  Over a duplicate-free sequence
list in fasta order, every produced assignment maps a sequence to a
representative whose fasta order (position in the list) is at most the
member's own, and every representative — in particular every sequence
chosen as a group seed — is assigned to itself. -/
theorem c10_group_assignment_invariant (matchfile : List (ℕ × ℕ)) (seqs : List ℕ)
    (ordOf : ℕ → ℕ) (hnd : seqs.Nodup) :
    ∀ a ∈ generate_sequence_groups matchfile seqs ordOf,
      List.indexOf a.2 seqs ≤ List.indexOf a.1 seqs ∧
        (a.2, a.2) ∈ generate_sequence_groups matchfile seqs ordOf := by
  unfold generate_sequence_groups
  exact groupFold_invariant matchfile ordOf seqs hnd seqs [] ⟨[], []⟩ rfl
    (by intro r hr; exact absurd hr (List.not_mem_nil r))
    (by intro b hb; exact absurd hb (List.not_mem_nil b))
    (by intro b hb; exact absurd hb (List.not_mem_nil b))
    (by intro r hr; exact absurd hr (List.not_mem_nil r))

/-- C10, witness: on a concrete matchfile the second sequence is grouped
under the first seed, which is assigned to itself. -/
theorem c10_group_assignment_invariant_witness :
    ([1, 2] : List ℕ).Nodup ∧
      ((2:ℕ), (1:ℕ)) ∈ generate_sequence_groups [(1, 2)] [1, 2] (fun i => i) ∧
      (List.indexOf (1:ℕ) [1, 2] ≤ List.indexOf (2:ℕ) [1, 2] ∧
        ((1:ℕ), (1:ℕ)) ∈ generate_sequence_groups [(1, 2)] [1, 2] (fun i => i)) :=
  ⟨by decide, by decide,
    c10_group_assignment_invariant [(1, 2)] [1, 2] (fun i => i) (by decide) (2, 1)
      (by decide)⟩

/-! ## C9: shape of the saved read table -/

/-- Insertion into the table-row sort is a permutation of consing. -/
theorem insertRowBy_perm (k : TableRow → ℕ) (r : TableRow) (l : List TableRow) :
    (insertRowBy k r l).Perm (r :: l) := by
  induction l with
  | nil => exact List.Perm.refl _
  | cons x xs ih =>
    rw [insertRowBy]
    by_cases hlt : k x < k r
    · rw [if_pos hlt]
      exact (ih.cons x).trans (List.Perm.swap r x xs)
    · rw [if_neg hlt]

/-- The table-row sort is a permutation of its input. -/
theorem sortRowsBy_perm (k : TableRow → ℕ) (l : List TableRow) :
    (sortRowsBy k l).Perm l := by
  induction l with
  | nil => exact List.Perm.refl _
  | cons x xs ih => exact (insertRowBy_perm k x (sortRowsBy k xs)).trans (ih.cons x)

/-- Insertion into an ascending-sorted table keeps it sorted. -/
theorem insertRowBy_pairwise (k : TableRow → ℕ) (r : TableRow) (l : List TableRow)
    (hl : List.Pairwise (fun a b => k a ≤ k b) l) :
    List.Pairwise (fun a b => k a ≤ k b) (insertRowBy k r l) := by
  induction l with
  | nil => simp [insertRowBy]
  | cons x xs ih =>
    rw [List.pairwise_cons] at hl
    obtain ⟨hx, hxs⟩ := hl
    rw [insertRowBy]
    by_cases hlt : k x < k r
    · rw [if_pos hlt, List.pairwise_cons]
      refine ⟨?_, ih hxs⟩
      intro y hy
      rcases List.mem_cons.mp ((insertRowBy_perm k r xs).mem_iff.mp hy) with rfl | hy
      · exact le_of_lt hlt
      · exact hx y hy
    · rw [if_neg hlt, List.pairwise_cons]
      refine ⟨?_, List.pairwise_cons.mpr ⟨hx, hxs⟩⟩
      intro y hy
      rcases List.mem_cons.mp hy with rfl | hy
      · exact not_lt.mp hlt
      · exact le_trans (not_lt.mp hlt) (hx y hy)

/-- The table-row sort is ascending in its key. -/
theorem sortRowsBy_pairwise (k : TableRow → ℕ) (l : List TableRow) :
    List.Pairwise (fun a b => k a ≤ k b) (sortRowsBy k l) := by
  induction l with
  | nil => simp [sortRowsBy]
  | cons x xs ih => exact insertRowBy_pairwise k x (sortRowsBy k xs) ih

/-- Sortedness by key upgrades to strict sortedness when the keys are
duplicate-free. -/
theorem pairwise_lt_of_le_of_nodup (k : TableRow → ℕ) (l : List TableRow)
    (h1 : List.Pairwise (fun a b => k a ≤ k b) l) (h2 : (l.map k).Nodup) :
    List.Pairwise (fun a b => k a < k b) l := by
  have h2' : List.Pairwise (fun a b => k a ≠ k b) l := List.pairwise_map.mp h2
  exact (h1.and h2').imp (fun h => lt_of_le_of_ne h.1 h.2)

/-- Two permuted lists that are strictly sorted by the same key are equal. -/
theorem eq_of_perm_of_sorted_by_key (k : TableRow → ℕ) (l₁ l₂ : List TableRow)
    (hp : l₁.Perm l₂) (h1 : List.Pairwise (fun a b => k a < k b) l₁)
    (h2 : List.Pairwise (fun a b => k a < k b) l₂) : l₁ = l₂ := by
  haveI : IsAntisymm TableRow (fun a b => k a < k b) :=
    ⟨fun a b hab hba => absurd hab (not_lt.mpr (le_of_lt hba))⟩
  exact List.eq_of_perm_of_sorted hp h1 h2

/-- Mapping every member of a duplicate-free list to its index yields the
range of positions. -/
theorem map_indexOf_eq_range (l : List ℕ) (h : l.Nodup) :
    l.map (fun i => List.indexOf i l) = List.range l.length := by
  apply List.ext_getElem
  · simp
  · intro n h1 h2
    simp only [List.getElem_map, List.getElem_range]
    exact List.indexOf_getElem h n (by simpa using h1)

/-- In a fasta frame sorted by total descending in which the sentinel hash
only occurs with total zero while every other hash has positive total, and
whose hashes are duplicate-free, the sentinel hash does not occur before
the last position. -/
theorem sentinel_not_before_last (l : List FastaRow)
    (hsort : List.Pairwise (fun a b => b.total ≤ a.total) l)
    (hnd : (l.map (fun r => r.hash)).Nodup)
    (hzero : ∀ r ∈ l, r.hash = empty_seq_hash → r.total = 0)
    (hpos : ∀ r ∈ l, r.hash ≠ empty_seq_hash → 0 < r.total) :
    empty_seq_hash ∉ (l.map (fun r => r.hash)).dropLast := by
  induction l with
  | nil => simp
  | cons r t ih =>
    cases t with
    | nil => simp
    | cons x t' =>
      intro hmem
      have hd : (List.map (fun r => r.hash) (r :: x :: t')).dropLast
          = r.hash :: (List.map (fun r => r.hash) (x :: t')).dropLast := rfl
      rw [hd] at hmem
      rcases List.mem_cons.mp hmem with heq | hmem'
      · have hr0 : r.total = 0 := hzero r (by simp) heq.symm
        have hxle : x.total ≤ r.total := (List.pairwise_cons.mp hsort).1 x (by simp)
        have hxhash : x.hash = empty_seq_hash := by
          by_contra hne
          have := hpos x (by simp) hne
          omega
        have hrx : r.hash ∈ List.map (fun r => r.hash) (x :: t') := by
          rw [List.map_cons]
          exact List.mem_cons.mpr (Or.inl (heq.symm.trans hxhash.symm))
        exact (List.nodup_cons.mp hnd).1 hrx
      · exact ih (List.pairwise_cons.mp hsort).2 (List.nodup_cons.mp hnd).2
          (fun q hq hqe => hzero q (List.mem_cons_of_mem r hq) hqe)
          (fun q hq hqe => hpos q (List.mem_cons_of_mem r hq) hqe) hmem'

/-- C9: shape of every saved part of the wide read table.  Over a catalog
with duplicate-free indices and hashes whose sentinel facts sum to zero
while every real sequence has positive total abundance, the saved rows are
exactly the fasta rows in `fasta_order` with the last row dropped, the
sentinel hash is absent from the saved rows, and every sample of the part
contributes one column cell to every row (including samples without any
fact). -/
theorem c9_read_table_shape (samples : List (ℕ × String)) (cat : List CatEntry)
    (facts : List Fact)
    (hidx : (cat.map (fun e => e.idx)).Nodup)
    (hhash : (cat.map (fun e => e.hash)).Nodup)
    (hzero : ∀ e ∈ cat, e.hash = empty_seq_hash → totalReads facts e.idx = 0)
    (hpos : ∀ e ∈ cat, e.hash ≠ empty_seq_hash → 0 < totalReads facts e.idx) :
    (generate_read_table samples (generate_fasta cat facts) facts).map Prod.fst =
        ((generate_fasta cat facts).map (fun r => r.hash)).dropLast ∧
      empty_seq_hash ∉
        (generate_read_table samples (generate_fasta cat facts) facts).map Prod.fst ∧
      ∀ row ∈ generate_read_table samples (generate_fasta cat facts) facts,
        row.2.length = samples.length := by
  have hperm : (generate_fasta cat facts).Perm
      (cat.map (fun e => ⟨e.idx, totalReads facts e.idx, e.hash, e.seq⟩)) :=
    sortByTotalDesc_perm _
  have hfsort : List.Pairwise (fun a b => b.total ≤ a.total) (generate_fasta cat facts) :=
    sortByTotalDesc_pairwise _
  have hfidx : ((generate_fasta cat facts).map (fun r => r.idx)).Nodup := by
    refine ((hperm.map (fun r => r.idx)).nodup_iff).mpr ?_
    rw [List.map_map]
    exact hidx
  have hfhash : ((generate_fasta cat facts).map (fun r => r.hash)).Nodup := by
    refine ((hperm.map (fun r => r.hash)).nodup_iff).mpr ?_
    rw [List.map_map]
    exact hhash
  have hfzero : ∀ r ∈ generate_fasta cat facts, r.hash = empty_seq_hash → r.total = 0 := by
    intro r hr hre
    obtain ⟨e, he, rfl⟩ := List.mem_map.mp (hperm.mem_iff.mp hr)
    exact hzero e he hre
  have hfpos : ∀ r ∈ generate_fasta cat facts, r.hash ≠ empty_seq_hash → 0 < r.total := by
    intro r hr hre
    obtain ⟨e, he, rfl⟩ := List.mem_map.mp (hperm.mem_iff.mp hr)
    exact hpos e he hre
  -- the pivoted and re-sorted rows are the fasta rows in fasta order
  have hordered :
      sortRowsBy (fun r => fastaPos (generate_fasta cat facts) r.idx)
        (sortRowsBy (fun r => r.idx)
          ((generate_fasta cat facts).map (fun q => TableRow.mk q.idx q.hash
            (samples.map (fun s => pivotCount facts q.idx s.1))))) =
      (generate_fasta cat facts).map (fun q => TableRow.mk q.idx q.hash
        (samples.map (fun s => pivotCount facts q.idx s.1))) := by
    have hkeys : ((generate_fasta cat facts).map (fun q => TableRow.mk q.idx q.hash
        (samples.map (fun s => pivotCount facts q.idx s.1)))).map
          (fun r => fastaPos (generate_fasta cat facts) r.idx)
        = List.range (generate_fasta cat facts).length := by
      rw [List.map_map]
      have : ((fun r : TableRow => fastaPos (generate_fasta cat facts) r.idx) ∘
          (fun q : FastaRow => TableRow.mk q.idx q.hash
            (samples.map (fun s => pivotCount facts q.idx s.1))))
          = (fun i => List.indexOf i ((generate_fasta cat facts).map (fun r => r.idx))) ∘
            (fun q : FastaRow => q.idx) := rfl
      rw [this, ← List.map_map, map_indexOf_eq_range _ hfidx, List.length_map]
    have hpermchain :
        (sortRowsBy (fun r => fastaPos (generate_fasta cat facts) r.idx)
          (sortRowsBy (fun r => r.idx)
            ((generate_fasta cat facts).map (fun q => TableRow.mk q.idx q.hash
              (samples.map (fun s => pivotCount facts q.idx s.1)))))).Perm
          ((generate_fasta cat facts).map (fun q => TableRow.mk q.idx q.hash
            (samples.map (fun s => pivotCount facts q.idx s.1)))) :=
      (sortRowsBy_perm _ _).trans (sortRowsBy_perm _ _)
    apply eq_of_perm_of_sorted_by_key (fun r => fastaPos (generate_fasta cat facts) r.idx)
      _ _ hpermchain
    · apply pairwise_lt_of_le_of_nodup _ _ (sortRowsBy_pairwise _ _)
      rw [(hpermchain.map _).nodup_iff, hkeys]
      exact List.nodup_range _
    · have hbase : List.Pairwise (fun a b : ℕ => a < b)
          (((generate_fasta cat facts).map (fun q => TableRow.mk q.idx q.hash
            (samples.map (fun s => pivotCount facts q.idx s.1)))).map
              (fun r => fastaPos (generate_fasta cat facts) r.idx)) := by
        rw [hkeys]
        exact List.pairwise_lt_range _
      exact List.pairwise_map.mp hbase
  have hrt : generate_read_table samples (generate_fasta cat facts) facts =
      (((generate_fasta cat facts).map (fun q => TableRow.mk q.idx q.hash
        (samples.map (fun s => pivotCount facts q.idx s.1)))).map
          (fun r => (r.hash, r.cells))).dropLast := by
    unfold generate_read_table
    dsimp only
    rw [hordered]
  have ha : (generate_read_table samples (generate_fasta cat facts) facts).map Prod.fst =
      ((generate_fasta cat facts).map (fun r => r.hash)).dropLast := by
    rw [hrt, ← List.map_dropLast, List.map_map, ← List.map_dropLast, List.map_map,
      ← List.map_dropLast]
    rfl
  refine ⟨ha, ?_, ?_⟩
  · rw [ha]
    exact sentinel_not_before_last _ hfsort hfhash hfzero hfpos
  · intro row hrow
    rw [hrt] at hrow
    have hrow' := (List.dropLast_prefix _).subset hrow
    obtain ⟨r, hr, rfl⟩ := List.mem_map.mp hrow'
    obtain ⟨q, hq, rfl⟩ := List.mem_map.mp hr
    simp

/-- C9, witness at a concrete input: one sample, the sentinel plus one real
sequence with three reads. -/
theorem c9_read_table_shape_witness :
    (([⟨0, 0, "empty_seq"⟩, ⟨1, 7, "AAAA"⟩] : List CatEntry).map (fun e => e.idx)).Nodup ∧
      (generate_read_table [(0, "s1")]
          (generate_fasta [⟨0, 0, "empty_seq"⟩, ⟨1, 7, "AAAA"⟩] [⟨0, 0, 0⟩, ⟨1, 0, 3⟩])
          [⟨0, 0, 0⟩, ⟨1, 0, 3⟩]).map Prod.fst =
        ((generate_fasta [⟨0, 0, "empty_seq"⟩, ⟨1, 7, "AAAA"⟩]
          [⟨0, 0, 0⟩, ⟨1, 0, 3⟩]).map (fun r => r.hash)).dropLast :=
  ⟨by decide,
    (c9_read_table_shape [(0, "s1")] [⟨0, 0, "empty_seq"⟩, ⟨1, 7, "AAAA"⟩]
      [⟨0, 0, 0⟩, ⟨1, 0, 3⟩] (by decide) (by decide) (by decide) (by decide)).1⟩

end Apscale

